import Mathlib

/-!
# Verification of the gosnmp BER helper codec (`helper.go`)

Shallow embedding of the encode/decode helpers of `gosnmp/helper.go` and proofs
about them.

Modelling conventions, fixed once for the whole file:

* Go byte slices (`[]byte`) are `List ℕ`; a well-formed buffer satisfies
  `∀ b ∈ data, b < 256`.  Go strings are byte slices too, so they are also
  `List ℕ` (`46` is the byte of the dot character, `48`..`57` are the decimal
  digit characters).
* The code predates Go 1.1 (its own comment at `uint64ToBigInt` says
  "replace ... when using Go 1.1"), so `int` and `uint` are 32-bit: `int` is
  the two's-complement range `[-2^31, 2^31)` and arithmetic on it wraps
  modulo `2^32`.  `int64`/`uint64` are 64-bit.  We model signed machine words
  as `ℤ` with explicit wrapping (`wrap32`, `toSigned64`) and unsigned ones as
  `ℕ` with explicit `% 2 ^ 64` etc.
* Go functions that can panic through an out-of-range index or slice are
  embedded totally: indexing is checked, and the panic outcome is a distinct
  constructor (`Option.none`, or `GoResult.panic`), never an ordinary error
  value.
* `bytes.Buffer` writes never fail, so buffer-building code is embedded as
  pure list construction.
-/

deriving instance DecidableEq for Except

namespace GoSnmp

/-- Two's-complement wrap of an integer into the 32-bit signed range
`[-2^31, 2^31)`; this is what Go's 32-bit `int` arithmetic does on
overflow. -/
def wrap32 (x : ℤ) : ℤ := (x + 2 ^ 31) % 2 ^ 32 - 2 ^ 31

/-- Signed reinterpretation of a 64-bit pattern (a natural number `< 2^64`)
as a two's-complement `int64` value. -/
def toSigned64 (x : ℕ) : ℤ := if x < 2 ^ 63 then (x : ℤ) else (x : ℤ) - 2 ^ 64

/-- Checked element load `data[i]` with a Go `int` index: `none` is the
index-out-of-range panic. -/
def zget (l : List ℕ) (i : ℤ) : Option ℕ :=
  if 0 ≤ i ∧ i < (l.length : ℤ) then some (l.getD i.toNat 0) else none

/-- Checked slice `data[a:b]` with Go `int` bounds: `none` is the
slice-bounds-out-of-range panic (Go requires `0 ≤ a ≤ b ≤ len(data)`). -/
def goSlice (l : List ℕ) (a b : ℤ) : Option (List ℕ) :=
  if 0 ≤ a ∧ a ≤ b ∧ b ≤ (l.length : ℤ) then some ((l.take b.toNat).drop a.toNat)
  else none

/-! ## Length codec (`marshalLength`, `parseLength`) -/

/-- The 8 bytes of `binary.Write(buf, binary.LittleEndian, uint64 n)`:
least-significant byte first. -/
def le8 (n : ℕ) : List ℕ := (List.range 8).map (fun i => n / 256 ^ i % 256)

/-- Model of `bytes.Buffer.ReadBytes(0)`: the bytes up to and including the first zero
byte; `none` when no zero byte is present (the `ReadBytes` error case). -/
def readUntilZero : List ℕ → Option (List ℕ)
  | [] => none
  | b :: rest => if b = 0 then some [0] else (readUntilZero rest).map (fun t => b :: t)

/-- Embedding of `marshalLength` of `helper.go`.  Note the faithfully reproduced quirks of
the source: the long form is taken already at `length = 127`; the length
bytes come from the little-endian `uint64` representation cut at its first
zero byte; and on the (unreachable for 32-bit `int` inputs) `ReadBytes`
failure the source returns the still-`nil` earlier error, i.e. success with
a nil slice. -/
def marshalLength (length : ℤ) : Except String (List ℕ) :=
  if length < 0 then .error ("length must be greater than zero")
  else if length < 127 then .ok [length.toNat]
  else
    match readUntilZero (le8 length.toNat) with
    | none => .ok []
    | some bb =>
      let core := bb.dropLast
      .ok ((128 ||| core.length) :: core)

/-- Embedding of `parseLength` of `helper.go`, totalised: `none` is the panic raised by the
unchecked index `bytes[2+i]` of the long-form loop.  The accumulator
`length` is a Go `int`, hence the 32-bit wraps. -/
def parseLength (bytes : List ℕ) : Option (ℤ × ℤ) :=
  if bytes.length ≤ 2 then some (2, 1)
  else if bytes.getD 1 0 ≤ 127 then some ((bytes.getD 1 0 : ℤ) + 2, 2)
  else
    let numOctets := bytes.getD 1 0 &&& 127
    if bytes.length < 2 + numOctets then none
    else
      let len0 := ((bytes.drop 2).take numOctets).foldl
        (fun (l : ℤ) (b : ℕ) => wrap32 (l * 256 + (b : ℤ))) 0
      some (wrap32 (len0 + 2 + (numOctets : ℤ)), 2 + (numOctets : ℤ))

/-! ## Base-128 varint codec (`marshalBase128Int`, `parseBase128Int`) -/

/-- Base-`base` digits of `n`, most significant first, by the division loop of
the source; `fuel ≥ n` makes the recursion total and is always supplied. -/
def digitsAux (base : ℕ) : ℕ → ℕ → List ℕ
  | 0, n => [n]
  | fuel + 1, n => if n < base then [n] else digitsAux base fuel (n / base) ++ [n % base]

/-- Value of a most-significant-first digit list in base `base`. -/
def digitsVal (base : ℕ) (ds : List ℕ) : ℕ := ds.foldl (fun a d => a * base + d) 0

/-- Set the continuation bit (0x80) on every 7-bit group except the last. -/
def markCont : List ℕ → List ℕ
  | [] => []
  | [d] => [d]
  | d :: rest => (d ||| 128) :: markCont rest

/-- Embedding of `marshalBase128Int` of `helper.go` (the writes into the
`bytes.Buffer` never fail).  The source's first loop counts the 7-bit groups
of `n` and the second emits `byte(n >> 7i) & 0x7f` from the most significant
group down, setting `0x80` on every group but the last — that is, the
base-128 digits of `n` most significant first (`digitsAux`), continuation
bits added (`markCont`).  `n = 0` encodes as a single zero byte; for
`n < 0` neither loop runs, so nothing at all is emitted. -/
def marshalBase128Int (n : ℤ) : List ℕ :=
  if n = 0 then [0]
  else if n < 0 then []
  else markCont (digitsAux 128 n.toNat n.toNat)

/-- The loop of `parseBase128Int`.  `fuel` equals `bytes.length - offset` at
every call, so `fuel = 0` is exactly the `offset < len(bytes)` loop exit,
which the source reports as a truncated integer.  `ret` carries the 32-bit
pattern of the Go `int` accumulator. -/
def parseB128Go (bytes : List ℕ) : ℕ → ℕ → ℕ → ℕ → Except String (ℤ × ℕ)
  | 0, _, _, _ => .error ("Syntax Error: truncated base 128 integer")
  | fuel + 1, shifted, offset, ret =>
    if 4 < shifted then .error ("Structural Error: base 128 integer too large")
    else
      let b := bytes.getD offset 0
      let ret1 : ℕ := (ret * 128) % 2 ^ 32 ||| (b &&& 127)
      if b &&& 128 = 0 then .ok (wrap32 (ret1 : ℤ), offset + 1)
      else parseB128Go bytes fuel (shifted + 1) (offset + 1) ret1

/-- Embedding of `parseBase128Int` of `helper.go`: value (as a Go `int`) and new offset. -/
def parseBase128Int (bytes : List ℕ) (initOffset : ℕ) : Except String (ℤ × ℕ) :=
  parseB128Go bytes (bytes.length - initOffset) 0 initOffset 0

/-! ## OID codec (`marshalObjectIdentifier`, `marshalOID`, `oidToString`,
`parseObjectIdentifier`) -/

/-- Embedding of `marshalObjectIdentifier` of `helper.go`.  The guard is the source's
short-circuit `len(oid) < 2 || oid[0] > 6 || oid[1] >= 40`; on success the
first byte is the Go conversion `byte(oid[0]*40 + oid[1])` (truncation
modulo 256, `Int.emod` so that negative components wrap like two's
complement casts do), followed by the varint encodings of the remaining
components. -/
def marshalObjectIdentifier (oid : List ℤ) : Except String (List ℕ) :=
  if oid.length < 2 ∨ 6 < oid.getD 0 0 ∨ 40 ≤ oid.getD 1 0 then
    .error ("invalid object identifier")
  else
    .ok (((40 * oid.getD 0 0 + oid.getD 1 0) % 256).toNat ::
      ((oid.drop 2).map marshalBase128Int).flatten)

/-- Decimal digit characters (as string bytes) of a natural number, what
`fmt.Sprintf` with a decimal verb produces for a non-negative value. -/
def natRepr (n : ℕ) : List ℕ := (digitsAux 10 n n).map (fun d => 48 + d)

/-- Decimal rendering of a Go `int` (`fmt.Sprintf(".%d", i)` without the
dot): a minus-sign byte (45) precedes the digits of a negative value. -/
def intRepr (i : ℤ) : List ℕ := if i < 0 then 45 :: natRepr i.natAbs else natRepr i.toNat

/-- Embedding of `oidToString` of `helper.go`: fold `ret += Sprintf(".%d", i)` and then
`ret[1:]` (the source would panic on an empty `oid`, but it is only ever
called with at least two components; `List.drop 1` of the empty list is
empty). -/
def oidToString (oid : List ℤ) : List ℕ :=
  (oid.foldl (fun ret i => ret ++ (46 :: intRepr i)) []).drop 1

/-- Model of `strings.Trim(s, ".")`: remove leading and trailing dot bytes. -/
def trimDots (s : List ℕ) : List ℕ :=
  ((s.dropWhile (fun c => c = 46)).reverse.dropWhile (fun c => c = 46)).reverse

/-- Model of `strings.Split(s, ".")`: split around every dot byte, keeping empty
segments; the result is never empty. -/
def splitDot : List ℕ → List (List ℕ)
  | [] => [[]]
  | c :: rest =>
    if c = 46 then [] :: splitDot rest
    else
      match splitDot rest with
      | [] => [[c]]
      | p :: ps => (c :: p) :: ps

/-- Go's `strconv.Atoi` (that is, `ParseInt(s, 10, 0)` with the 32-bit `int`
of the pre-1.1 toolchain this code targets), modelled from its documented
behavior: optional sign, at least one decimal digit, nothing else, and a
range error when the value does not fit the 32-bit signed range. -/
def goAtoi (s : List ℕ) : Except String ℤ :=
  match s with
  | [] => .error ("invalid syntax")
  | c :: rest =>
    let neg : Bool := c = 45
    let digs : List ℕ := if c = 45 ∨ c = 43 then rest else s
    if digs = [] then .error ("invalid syntax")
    else if digs.all (fun d => decide (48 ≤ d ∧ d ≤ 57)) then
      let v : ℕ := digitsVal 10 (digs.map (fun d => d - 48))
      if neg then
        if 2 ^ 31 < (v : ℤ) then .error ("value out of range") else .ok (-(v : ℤ))
      else
        if (2 ^ 31 : ℤ) ≤ (v : ℤ) then .error ("value out of range") else .ok (v : ℤ)
    else .error ("invalid syntax")

/-- The segment-conversion loop of `marshalOID`: `Atoi` every segment in
order, aborting on the first failure. -/
def atoiAll : List (List ℕ) → Except String (List ℤ)
  | [] => .ok []
  | p :: ps =>
    match goAtoi p with
    | .error e => .error e
    | .ok v =>
      match atoiAll ps with
      | .error e => .error e
      | .ok vs => .ok (v :: vs)

/-- Embedding of `marshalOID` of `helper.go`: trim dots, split on dots, `Atoi` every
segment (the loop aborts on the first failure), then marshal the integer
sequence. -/
def marshalOID (s : List ℕ) : Except String (List ℕ) :=
  let parts := splitDot (trimDots s)
  match atoiAll parts with
  | .error e => .error ("Unable to parse OID: " ++ e)
  | .ok oidBytes =>
    match marshalObjectIdentifier oidBytes with
    | .error e => .error ("Unable to marshal OID: " ++ e)
    | .ok m => .ok m

/-- The varint loop of `parseObjectIdentifier`.  `fuel` bounds the number of
iterations; since every successful `parseBase128Int` advances `offset` by at
least one, `fuel = bytes.length` (as passed below) can never run out — the
fuel-exhaustion error is an unreachable artefact of the embedding. -/
def parseOidAux (bytes : List ℕ) (fuel offset : ℕ) : Except String (List ℤ) :=
  if offset < bytes.length then
    match fuel with
    | 0 => .error ("out of fuel")
    | f + 1 =>
      match parseBase128Int bytes offset with
      | .error e => .error e
      | .ok (v, off') =>
        match parseOidAux bytes f off' with
        | .error e => .error e
        | .ok vs => .ok (v :: vs)
  else .ok []

/-- Embedding of `parseObjectIdentifier` of `helper.go`: first byte splits as
`(bytes[0]/40, bytes[0]%40)`, the rest is a run of varints. -/
def parseObjectIdentifier (bytes : List ℕ) : Except String (List ℤ) :=
  match bytes with
  | [] => .error ("zero length OBJECT IDENTIFIER")
  | b0 :: _ =>
    match parseOidAux bytes bytes.length 1 with
    | .error e => .error e
    | .ok vs => .ok (((b0 / 40 : ℕ) : ℤ) :: ((b0 % 40 : ℕ) : ℤ) :: vs)

/-! ## Integer codec (`parseInt64`, `parseInt`, `parseUint64`, `parseUint`,
`uint64ToBigInt`) -/

/-- Embedding of `parseInt64` of `helper.go`.  The accumulation `ret <<= 8; ret |= b` on
the 64-bit pattern is base-256 accumulation modulo `2^64` (after the shift
the low 8 bits are zero, so the bitwise or is addition).  The sign extension
`ret <<= 64 - 8*len; ret >>= 64 - 8*len` is the literal pair of shifts: a
wrapping left shift of the pattern followed by an arithmetic (floor) right
shift of the signed value. -/
def parseInt64 (bytes : List ℕ) : Except String ℤ :=
  if 8 < bytes.length then .error ("integer too large")
  else
    let u : ℕ := bytes.foldl (fun acc b => (acc * 256 + b) % 2 ^ 64) 0
    let w : ℕ := 64 - 8 * bytes.length
    .ok (Int.fdiv (toSigned64 (u * 2 ^ w % 2 ^ 64)) (2 ^ w))

/-- Embedding of `parseInt` of `helper.go`: the `int`-width (32-bit) round-trip check
`ret64 != int64(int(ret64))` on top of `parseInt64`. -/
def parseInt (bytes : List ℕ) : Except String ℤ :=
  match parseInt64 bytes with
  | .error e => .error e
  | .ok ret64 =>
    if ret64 ≠ wrap32 ret64 then .error ("integer too large") else .ok ret64

/-- Embedding of `parseUint64` of `helper.go`: big-endian unsigned accumulation on the
64-bit pattern. -/
def parseUint64 (bytes : List ℕ) : Except String ℕ :=
  if 8 < bytes.length then .error ("integer too large")
  else .ok (bytes.foldl (fun acc b => (acc * 256 + b) % 2 ^ 64) 0)

/-- Embedding of `parseUint` of `helper.go`: the `uint`-width (32-bit) round-trip check
`ret64 != uint64(uint(ret64))` on top of `parseUint64`. -/
def parseUint (bytes : List ℕ) : Except String ℕ :=
  match parseUint64 bytes with
  | .error e => .error e
  | .ok ret64 =>
    if ret64 ≠ ret64 % 2 ^ 32 then .error ("integer too large") else .ok ret64

/-- The package-level `uint64ToBigIntDelta`, set to `2^63` by `init()` via
`SetBit(..., 63, 1)`. -/
def uint64ToBigIntDelta : ℤ := 2 ^ 63

/-- Embedding of `uint64ToBigInt` of `helper.go`.  For `n > math.MaxInt64` the source
computes `int64(n - uint64(math.MaxInt64) - 1)` — unsigned 64-bit
subtraction reinterpreted as a signed value — and adds the big-integer
delta. -/
def uint64ToBigInt (n : ℕ) : ℤ :=
  if n ≤ 2 ^ 63 - 1 then (n : ℤ)
  else toSigned64 ((n - (2 ^ 63 - 1) - 1) % 2 ^ 64) + uint64ToBigIntDelta

/-! ## Bit string codec (`parseBitString`) -/

/-- Embedding of `BitStringValue` of `helper.go` (`Bytes`: packed bits, `BitLength`: count
of meaningful bits, a Go `int`). -/
structure BitStringValue where
  Bytes : List ℕ
  BitLength : ℤ
deriving DecidableEq, Repr

/-- Embedding of `parseBitString` of `helper.go`.  The mask `(1<<bytes[0])-1` is computed
in byte arithmetic (`((1 <<< b) + 255) % 256` is the Go byte value of
`byte(1 << b) - 1` for every `b`, wrapping included). -/
def parseBitString (bytes : List ℕ) : Except String BitStringValue :=
  if bytes.length = 0 then .error ("zero length BIT STRING")
  else
    let paddingBits := bytes.getD 0 0
    if 7 < paddingBits ∨ (bytes.length = 1 ∧ 0 < paddingBits)
        ∨ bytes.getLastD 0 &&& ((1 <<< bytes.getD 0 0) + 255) % 256 ≠ 0 then
      .error ("invalid padding bits in BIT STRING")
    else
      .ok ⟨bytes.drop 1, ((bytes.length : ℤ) - 1) * 8 - (paddingBits : ℤ)⟩

/-- The bit-string decoder as the specification words it: first byte is the
padding count (at most 7, and 0 when there is no data byte), the padding
bits — the value of the last byte modulo `2^padding` — must be zero, and the
result keeps the remaining bytes with `(len-1)*8 - padding` meaningful
bits.  Stated from the spec to compare with `parseBitString` above. -/
def parseBitStringSpec (bytes : List ℕ) : Except String BitStringValue :=
  match bytes with
  | [] => .error ("zero length BIT STRING")
  | pad :: rest =>
    if 7 < pad ∨ (rest = [] ∧ 0 < pad)
        ∨ (pad :: rest).getLastD 0 % 2 ^ pad ≠ 0 then
      .error ("invalid padding bits in BIT STRING")
    else
      .ok ⟨rest, (rest.length : ℤ) * 8 - (pad : ℤ)⟩

/-! ## Typed value decoder (`decodeValue`) and raw field parser
(`parseRawField`) -/

/-- Outcome of a Go function that can panic: `panic` (out-of-range index or
slice), an error value, or a result. -/
inductive GoResult (α : Type) where
  | panic : GoResult α
  | err : String → GoResult α
  | ok : α → GoResult α
deriving DecidableEq, Repr

/-- The dynamic payload of a decoded `Variable` (Go `interface{}`): absent,
Go `int`, Go `uint`, Go `int64`, a string (byte list), or a `[]int` OID. -/
inductive GoValue where
  | vNil : GoValue
  | vInt : ℤ → GoValue
  | vUint : ℕ → GoValue
  | vInt64 : ℤ → GoValue
  | vStr : List ℕ → GoValue
  | vOidList : List ℤ → GoValue
deriving DecidableEq, Repr

/-- Embedding of `Variable` of gosnmp: BER type tag plus decoded payload.  A fresh
`new(Variable)` has the zero tag `0` and a nil value. -/
structure Variable where
  vType : ℕ
  value : GoValue
deriving DecidableEq, Repr

/-- Hex byte rendering `%02x` (two lowercase hex digit characters). -/
def hexByte (b : ℕ) : List ℕ :=
  let dig : ℕ → ℕ := fun d => if d < 10 then 48 + d else 87 + d
  [dig (b / 16 % 16), dig (b % 16)]

/-- Model of `fmt.Sprintf` with a space-separated hex verb on a byte slice:
`"aa bb cc"`. -/
def hexDump (l : List ℕ) : List ℕ :=
  ((l.map (fun b => 32 :: hexByte b)).flatten).drop 1

/-- Embedding of `parseRawField` of `helper.go` (the `dumpBytes1` trace has no effect and
is dropped).  Returns the decoded value and the byte count consumed; `panic`
for the unchecked loads `data[1]`, `data[2]` and the unchecked slices. -/
def parseRawField (data : List ℕ) : GoResult (GoValue × ℤ) :=
  match data with
  | [] => .panic
  | t :: _ =>
    if t = 2 then
      match zget data 1 with
      | none => .panic
      | some len1 =>
        if len1 = 1 then
          match zget data 2 with
          | none => .panic
          | some v => .ok (.vInt (v : ℤ), 3)
        else
          match goSlice data 2 (2 + (len1 : ℤ)) with
          | none => .panic
          | some region =>
            match parseUint region with
            | .error e => .err e
            | .ok resp => .ok (.vUint resp, 2 + (len1 : ℤ))
    else if t = 4 then
      match parseLength data with
      | none => .panic
      | some (length, cursor) =>
        match goSlice data cursor length with
        | none => .panic
        | some region => .ok (.vStr region, length)
    else if t = 6 then
      match zget data 1 with
      | none => .panic
      | some len1 =>
        match goSlice data 2 (2 + (len1 : ℤ)) with
        | none => .panic
        | some region =>
          match parseObjectIdentifier region with
          | .error e => .err e
          | .ok oid => .ok (.vOidList oid, (len1 : ℤ) + 2)
    else .err ("Unknown field type")

/-- Embedding of `decodeValue` of `helper.go` (the `dumpBytes1`/`slog` traces have no
effect and are dropped).  The tag values are the ones the source's case
comments record: Integer `0x02`, OctetString `0x04`, Null `0x05`,
ObjectIdentifier `0x06`, IpAddress `0x40`, Counter32 `0x41`, Gauge32 `0x42`,
TimeTicks `0x43`, Counter64 `0x46`, NoSuchObject `0x80`, NoSuchInstance
`0x81`.  In the Counter32/Gauge32/TimeTicks/Counter64 cases a parse failure
executes `break`, which leaves the freshly allocated `retVal` at its zero
value and the (named, not shadowed) `err` at `nil`: the function then
returns successfully with `⟨0, vNil⟩`. -/
def decodeValue (data : List ℕ) : GoResult Variable :=
  match data with
  | [] => .panic
  | t :: _ =>
    if t = 2 then
      match parseLength data with
      | none => .panic
      | some (length, cursor) =>
        match goSlice data cursor length with
        | none => .panic
        | some region =>
          match parseInt region with
          | .error _ => .err ("bytes -- err")
          | .ok ret => .ok ⟨2, .vInt ret⟩
    else if t = 4 then
      match parseLength data with
      | none => .panic
      | some (length, cursor) =>
        match zget data cursor with
        | none => .panic
        | some dc =>
          if dc = 0 ∧ length = 2 then .ok ⟨4, .vStr []⟩
          else if dc = 0 then
            match goSlice data cursor length with
            | none => .panic
            | some region => .ok ⟨4, .vStr (hexDump region)⟩
          else
            match goSlice data cursor length with
            | none => .panic
            | some region => .ok ⟨4, .vStr region⟩
    else if t = 5 then .ok ⟨5, .vNil⟩
    else if t = 6 then
      match parseRawField data with
      | .panic => .panic
      | .err e => .err ("Error parsing OID Value: " ++ e)
      | .ok (v, _) =>
        match v with
        | .vOidList oid => .ok ⟨6, .vStr (oidToString oid)⟩
        | _ => .err ("unable to type assert rawOid")
    else if t = 64 then
      if data.length < 6 then .err ("not enough data for ipaddress")
      else if data.getD 1 0 ≠ 4 then .err ("got ipaddress len, expected 4")
      else .ok ⟨64, .vStr ((([2, 3, 4, 5].map
        (fun i => 46 :: natRepr (data.getD i 0))).flatten).drop 1)⟩
    else if t = 65 then
      match parseLength data with
      | none => .panic
      | some (length, cursor) =>
        match goSlice data cursor length with
        | none => .panic
        | some region =>
          match parseUint region with
          | .error _ => .ok ⟨0, .vNil⟩
          | .ok ret => .ok ⟨65, .vUint ret⟩
    else if t = 66 then
      match parseLength data with
      | none => .panic
      | some (length, cursor) =>
        match goSlice data cursor length with
        | none => .panic
        | some region =>
          match parseUint region with
          | .error _ => .ok ⟨0, .vNil⟩
          | .ok ret => .ok ⟨66, .vUint ret⟩
    else if t = 67 then
      match parseLength data with
      | none => .panic
      | some (length, cursor) =>
        match goSlice data cursor length with
        | none => .panic
        | some region =>
          match parseInt region with
          | .error _ => .ok ⟨0, .vNil⟩
          | .ok ret => .ok ⟨67, .vInt ret⟩
    else if t = 70 then
      match parseLength data with
      | none => .panic
      | some (length, cursor) =>
        match goSlice data cursor length with
        | none => .panic
        | some region =>
          match parseInt64 region with
          | .error _ => .ok ⟨0, .vNil⟩
          | .ok ret => .ok ⟨70, .vInt64 ret⟩
    else if t = 128 then .ok ⟨128, .vNil⟩
    else if t = 129 then .ok ⟨129, .vNil⟩
    else .err ("Unable to decode - not implemented")

/-! ## C1 and C4: the length codec -/

/-- C1: the claimed round trip "for every n ≥ 0, parsing
`marshal_length(n) ++ n zero payload bytes` recovers a total length and
cursor consistent with n" FAILS.  `marshalLength` emits its length octets in
little-endian order, truncated at the first zero byte of the 8-byte
little-endian representation, while `parseLength` reads them big-endian: at
n = 256 the encoding is the single header byte `0x80` with no length octets
at all, and the parse recovers total 2 (payload 2 - 1 = 1 ≠ 256 without a
tag byte, 2 - 2 = 0 ≠ 256 with one); at n = 300 the encoding is
`[0x82, 0x2C, 0x01]` and the parse of the tagged TLV recovers total 11269,
i.e. payload 11269 - 4 = 11265 ≠ 300. -/
theorem length_roundTrip_fails_beyond_255 :
    marshalLength 256 = .ok [128]
    ∧ parseLength (128 :: List.replicate 256 0) = some (2, 2)
    ∧ marshalLength 300 = .ok [130, 44, 1]
    ∧ parseLength (48 :: 130 :: 44 :: 1 :: List.replicate 300 0) = some (11269, 4)
    ∧ (11269 : ℤ) - 4 ≠ 300 ∧ (2 : ℤ) - 1 ≠ 256 ∧ (2 : ℤ) - 2 ≠ 256 := by
  refine ⟨by decide, ?_, by decide, ?_, by decide, by decide, by decide⟩
  · set_option maxRecDepth 4000 in decide
  · set_option maxRecDepth 4000 in decide

/-- C4: the claim that for `length ≥ 127` `marshalLength` emits the minimal
BIG-endian byte sequence FAILS for every length whose minimal encoding has
more than one byte: the source writes the `uint64` little-endian and cuts at
the first zero byte, so `marshalLength 300` is `[0x82, 0x2C, 0x01]`
(little-endian octets `44, 1`) and not the big-endian `[0x82, 0x01, 0x2C]`.
The other parts of the claim hold: one byte below 127, the `[0x81, 0xC8]`
boundary value at 200, and the error on negative input. -/
theorem marshalLength_not_big_endian :
    marshalLength 200 = .ok [129, 200]
    ∧ marshalLength 126 = .ok [126]
    ∧ marshalLength (-1) = .error ("length must be greater than zero")
    ∧ marshalLength 300 = .ok [130, 44, 1]
    ∧ marshalLength 300 ≠ .ok [130, 1, 44] := by
  refine ⟨by decide, by decide, by decide, by decide, by decide⟩

/-! ## C2: numeric decode failures are swallowed by `decodeValue` -/

/-- C2: the claim that a failing numeric parse inside a Counter32, Gauge32,
TimeTicks or Counter64 TLV is reported as a recoverable error value FAILS on
the code: the error is logged and `break` leaves the switch, so
`decodeValue` returns a nil error together with the zero-valued `Variable`
(tag 0, nil payload).  Witnessed here with a 9-byte value region, which
every numeric parser rejects as too large. -/
theorem decodeValue_swallows_numeric_errors :
    decodeValue (65 :: 9 :: List.replicate 9 1) = .ok ⟨0, .vNil⟩
    ∧ decodeValue (66 :: 9 :: List.replicate 9 1) = .ok ⟨0, .vNil⟩
    ∧ decodeValue (67 :: 9 :: List.replicate 9 1) = .ok ⟨0, .vNil⟩
    ∧ decodeValue (70 :: 9 :: List.replicate 9 1) = .ok ⟨0, .vNil⟩ := by
  refine ⟨by decide, by decide, by decide, by decide⟩

/-! ## C9: unchecked reads at the decode entry points -/

/-- C9: `decodeValue` reads `data[0]` and `parseRawField` reads `data[0]`
(and later `data[1]`, …) without any bounds check; in the total embedding
both entry points reach the out-of-range outcome — a panic, distinct from
every reported error value — on the empty buffer. -/
theorem decode_entry_points_panic_on_empty :
    decodeValue [] = .panic ∧ parseRawField [] = .panic := by
  exact ⟨rfl, rfl⟩

/-! ## C7: unsigned-to-big-integer bridge -/

/-- C7: for every `uint64` value `n` above `math.MaxInt64`, `uint64ToBigInt`
takes the bridge path — reinterpret `n - MaxInt64 - 1` (that is, `n - 2^63`
in unsigned 64-bit arithmetic) as a signed 64-bit value and add the
precomputed `2^63` delta — and the resulting integer represents `n`
exactly. -/
theorem uint64ToBigInt_exact (n : ℕ) (h1 : 2 ^ 63 - 1 < n) (h2 : n < 2 ^ 64) :
    uint64ToBigInt n = (n : ℤ)
    ∧ uint64ToBigInt n = toSigned64 ((n - 2 ^ 63) % 2 ^ 64) + uint64ToBigIntDelta := by
  unfold uint64ToBigInt uint64ToBigIntDelta toSigned64
  rw [if_neg (by omega)]
  have hsub : n - (2 ^ 63 - 1) - 1 = n - 2 ^ 63 := by omega
  have hmod : (n - 2 ^ 63) % 2 ^ 64 = n - 2 ^ 63 := Nat.mod_eq_of_lt (by omega)
  rw [hsub, hmod, if_pos (by omega : n - 2 ^ 63 < 2 ^ 63)]
  refine ⟨?_, rfl⟩
  omega

/-- Witness for C7 at the smallest bridged input `n = 2^63`. -/
theorem uint64ToBigInt_exact_witness :
    uint64ToBigInt (2 ^ 63) = ((2 ^ 63 : ℕ) : ℤ) :=
  (uint64ToBigInt_exact (2 ^ 63) (by decide) (by decide)).1

/-! ## Shared arithmetic lemmas -/

theorem wrap32_eq_self {x : ℤ} (h1 : -2 ^ 31 ≤ x) (h2 : x < 2 ^ 31) : wrap32 x = x := by
  unfold wrap32
  omega

theorem wrap32_eq_self_iff (x : ℤ) : wrap32 x = x ↔ -2 ^ 31 ≤ x ∧ x < 2 ^ 31 := by
  unfold wrap32
  omega

theorem wrap32_congr {a b : ℤ} (h : a % 2 ^ 32 = b % 2 ^ 32) : wrap32 a = wrap32 b := by
  unfold wrap32
  omega

theorem wrap32_mod (x : ℤ) : wrap32 x % 2 ^ 32 = x % 2 ^ 32 := by
  unfold wrap32
  omega

theorem wrap32_of_mod_lt {x : ℤ} (h : x % 2 ^ 32 < 2 ^ 31) :
    wrap32 x = x % 2 ^ 32 := by
  unfold wrap32
  omega

theorem digitsVal_cons (base d : ℕ) (ds : List ℕ) :
    digitsVal base (d :: ds) = d * base ^ ds.length + digitsVal base ds := by
  have key : ∀ (l : List ℕ) (x : ℕ),
      l.foldl (fun a e => a * base + e) x = x * base ^ l.length + digitsVal base l := by
    intro l
    induction l with
    | nil => intro x; simp [digitsVal]
    | cons e l ih =>
      intro x
      have hv : digitsVal base (e :: l) = e * base ^ l.length + digitsVal base l := by
        show List.foldl _ 0 (e :: l) = _
        rw [List.foldl_cons, ih]
        simp
      rw [List.foldl_cons, ih, hv, List.length_cons]
      ring
  show List.foldl _ 0 (d :: ds) = _
  rw [List.foldl_cons, key]
  simp

theorem digitsVal_lt (base : ℕ) (ds : List ℕ) (h : ∀ d ∈ ds, d < base) :
    digitsVal base ds < base ^ ds.length := by
  induction ds with
  | nil => simp [digitsVal]
  | cons d ds ih =>
    rw [digitsVal_cons, List.length_cons, pow_succ]
    have hd : d < base := h d (List.mem_cons_self d ds)
    have hv : digitsVal base ds < base ^ ds.length := ih (fun e he => h e (List.mem_cons_of_mem d he))
    calc d * base ^ ds.length + digitsVal base ds
        < d * base ^ ds.length + base ^ ds.length := by omega
      _ = (d + 1) * base ^ ds.length := by ring
      _ ≤ base * base ^ ds.length := Nat.mul_le_mul_right _ (by omega)
      _ = base ^ ds.length * base := by ring

theorem foldl_mod64_from (bytes : List ℕ) : ∀ x : ℕ,
    x * 256 ^ bytes.length + digitsVal 256 bytes < 2 ^ 64 →
    bytes.foldl (fun acc b => (acc * 256 + b) % 2 ^ 64) x
      = x * 256 ^ bytes.length + digitsVal 256 bytes := by
  induction bytes with
  | nil => intro x _; simp [digitsVal]
  | cons d ds ih =>
    intro x h
    have hfin : (x * 256 + d) * 256 ^ ds.length + digitsVal 256 ds
        = x * 256 ^ (d :: ds).length + digitsVal 256 (d :: ds) := by
      rw [digitsVal_cons, List.length_cons, pow_succ]
      ring
    have hle : x * 256 + d ≤ (x * 256 + d) * 256 ^ ds.length + digitsVal 256 ds := by
      have : 0 < 256 ^ ds.length := pow_pos (by norm_num) _
      calc x * 256 + d ≤ (x * 256 + d) * 256 ^ ds.length :=
            Nat.le_mul_of_pos_right _ this
        _ ≤ _ := Nat.le_add_right _ _
    rw [List.foldl_cons, Nat.mod_eq_of_lt (by omega), ih (x * 256 + d) (by omega), hfin]

/-! ## C3: `parseInt` and the 32-bit round-trip check -/

/-- The 64-bit two's-complement value of a big-endian byte sequence of at
most 8 bytes, as the specification describes it: the plain big-endian value,
sign-extended from its own width. -/
def twosComplement (bytes : List ℕ) : ℤ :=
  if bytes.length = 0 then 0
  else if digitsVal 256 bytes < 2 ^ (8 * bytes.length - 1) then (digitsVal 256 bytes : ℤ)
  else (digitsVal 256 bytes : ℤ) - 2 ^ (8 * bytes.length)

theorem digitsVal_lt_two_pow (bytes : List ℕ) (hb : ∀ b ∈ bytes, b < 256) :
    digitsVal 256 bytes < 2 ^ (8 * bytes.length) := by
  have h := digitsVal_lt 256 bytes hb
  have : (256 : ℕ) ^ bytes.length = 2 ^ (8 * bytes.length) := by
    rw [show (256 : ℕ) = 2 ^ 8 by norm_num, ← pow_mul]
  omega

theorem parseInt64_eq_twosComplement (bytes : List ℕ) (hb : ∀ b ∈ bytes, b < 256)
    (hlen : bytes.length ≤ 8) :
    parseInt64 bytes = .ok (twosComplement bytes) := by
  unfold parseInt64
  rw [if_neg (by omega)]
  have hv8 : digitsVal 256 bytes < 2 ^ (8 * bytes.length) := digitsVal_lt_two_pow bytes hb
  have hfold : bytes.foldl (fun acc b => (acc * 256 + b) % 2 ^ 64) 0 = digitsVal 256 bytes := by
    have h64 : digitsVal 256 bytes < 2 ^ 64 :=
      lt_of_lt_of_le hv8 (Nat.pow_le_pow_right (by norm_num) (by omega))
    have := foldl_mod64_from bytes 0 (by simpa using h64)
    simpa using this
  show Except.ok (Int.fdiv (toSigned64 (bytes.foldl (fun acc b => (acc * 256 + b) % 2 ^ 64) 0
    * 2 ^ (64 - 8 * bytes.length) % 2 ^ 64)) (2 ^ (64 - 8 * bytes.length))) = _
  rw [hfold]
  set v := digitsVal 256 bytes with hvdef
  set L := bytes.length with hLdef
  set w := 64 - 8 * L with hwdef
  have hwsum : 8 * L + w = 64 := by omega
  have hpow : (2 : ℕ) ^ (8 * L) * 2 ^ w = 2 ^ 64 := by rw [← pow_add, hwsum]
  have hshift : v * 2 ^ w < 2 ^ 64 := by
    calc v * 2 ^ w < 2 ^ (8 * L) * 2 ^ w :=
          (Nat.mul_lt_mul_right (pow_pos (by norm_num) _)).mpr hv8
      _ = 2 ^ 64 := hpow
  rw [Nat.mod_eq_of_lt hshift]
  rcases Nat.eq_zero_or_pos L with hL0 | hLpos
  · have hbe : bytes = [] := List.length_eq_zero.mp hL0
    subst hbe
    decide
  · unfold twosComplement
    rw [if_neg (by omega)]
    unfold toSigned64
    rcases lt_or_le v (2 ^ (8 * L - 1)) with hsmall | hbig
    · have hlt63 : v * 2 ^ w < 2 ^ 63 := by
        calc v * 2 ^ w < 2 ^ (8 * L - 1) * 2 ^ w :=
              (Nat.mul_lt_mul_right (pow_pos (by norm_num) _)).mpr hsmall
          _ = 2 ^ 63 := by rw [← pow_add]; congr 1; omega
      rw [if_pos hlt63, if_pos hsmall]
      push_cast
      rw [Int.mul_fdiv_cancel _ (by positivity)]
    · have hge63 : ¬ (v * 2 ^ w < 2 ^ 63) := by
        push_neg
        calc (2 : ℕ) ^ 63 = 2 ^ (8 * L - 1) * 2 ^ w := by rw [← pow_add]; congr 1; omega
          _ ≤ v * 2 ^ w := Nat.mul_le_mul_right _ hbig
      rw [if_neg hge63, if_neg (Nat.not_lt.mpr hbig)]
      have hfact : ((v * 2 ^ w : ℕ) : ℤ) - 2 ^ 64 = ((v : ℤ) - 2 ^ (8 * L)) * 2 ^ w := by
        have h2 : ((2 : ℤ) ^ (8 * L)) * 2 ^ w = 2 ^ 64 := by
          rw [← pow_add, hwsum]
        push_cast
        linear_combination h2
      rw [hfact, Int.mul_fdiv_cancel _ (by positivity)]

/-- C3: for every byte sequence of at most 8 bytes, `parseInt` fails with the
"integer too large" error exactly when the 64-bit two's-complement value of
the bytes does not fit the 32-bit signed range `[-2^31, 2^31)` (the Go `int`
of the targeted pre-1.1 toolchain), and otherwise returns that value. -/
theorem parseInt_int32_roundtrip (bytes : List ℕ) (hb : ∀ b ∈ bytes, b < 256)
    (hlen : bytes.length ≤ 8) :
    parseInt bytes =
      if -2 ^ 31 ≤ twosComplement bytes ∧ twosComplement bytes < 2 ^ 31
      then .ok (twosComplement bytes) else .error ("integer too large") := by
  have hred : parseInt bytes =
      if twosComplement bytes ≠ wrap32 (twosComplement bytes)
      then Except.error ("integer too large") else Except.ok (twosComplement bytes) := by
    unfold parseInt
    rw [parseInt64_eq_twosComplement bytes hb hlen]
  rw [hred]
  by_cases h : -2 ^ 31 ≤ twosComplement bytes ∧ twosComplement bytes < 2 ^ 31
  · rw [if_pos h, if_neg]
    simp only [ne_eq, not_not]
    exact (wrap32_eq_self h.1 h.2).symm
  · rw [if_neg h, if_pos]
    intro heq
    exact h ((wrap32_eq_self_iff (twosComplement bytes)).mp heq.symm)

/-- Witness for C3: a 5-byte value `0x00FFFFFFFF = 2^32 - 1` is rejected by
the 32-bit check, and a 1-byte value is returned as is. -/
theorem parseInt_int32_roundtrip_witness :
    parseInt [0, 255, 255, 255, 255] = .error ("integer too large") := by
  have h := parseInt_int32_roundtrip [0, 255, 255, 255, 255] (by decide) (by decide)
  rw [h]
  decide

/-! ## C6: `marshalObjectIdentifier` -/

/-- C6 counterexample: the claim that on success the output starts with "the
single byte `40*seq[0]+seq[1]`" FAILS when that quantity exceeds 255: for
`seq = [6, 16]` the guard passes (`6 ≤ 6`, `16 < 40`) but `40*6+16 = 256`
truncates to the byte `0`. -/
theorem marshalObjectIdentifier_first_byte_truncates :
    marshalObjectIdentifier [6, 16] = .ok [0]
    ∧ (40 * 6 + 16 : ℕ) = 256
    ∧ marshalObjectIdentifier [6, 16] ≠ .ok [40 * 6 + 16] := by
  refine ⟨by decide, by decide, by decide⟩

/-- C6 amended: `marshalObjectIdentifier` fails exactly when the sequence has
fewer than 2 components, or `seq[0] > 6`, or `seq[1] ≥ 40`; on success the
output is the single byte `(40*seq[0]+seq[1]) mod 256` followed by the
base-128 varint encodings of the remaining components, concatenated in
order. -/
theorem marshalObjectIdentifier_characterization :
    (∀ (a b : ℤ) (rest : List ℤ), marshalObjectIdentifier (a :: b :: rest) =
      if 6 < a ∨ 40 ≤ b then .error ("invalid object identifier")
      else .ok (((40 * a + b) % 256).toNat :: (rest.map marshalBase128Int).flatten))
    ∧ marshalObjectIdentifier [] = .error ("invalid object identifier")
    ∧ (∀ a : ℤ, marshalObjectIdentifier [a] = .error ("invalid object identifier")) := by
  refine ⟨?_, by decide, fun a => rfl⟩
  intro a b rest
  have h2 : ¬ (rest.length + 1 + 1 < 2) := by omega
  simp [marshalObjectIdentifier, h2]

/-! ## C8: `parseBitString` -/

/-- C8: `parseBitString` behaves exactly as specified: it fails on empty
input; otherwise it fails exactly when the padding count exceeds 7, or the
buffer is a lone nonzero padding byte, or the padding bits of the last byte
are not all zero; on success it keeps the tail with
`(len-1)*8 - padding` meaningful bits.  In particular `[0x04, 0xF0]`
succeeds with bit length 4 and `[0x04, 0xF8]` fails. -/
theorem parseBitString_matches_spec :
    (∀ bytes : List ℕ, parseBitString bytes = parseBitStringSpec bytes)
    ∧ parseBitString [4, 240] = .ok ⟨[240], 4⟩
    ∧ parseBitString [4, 248] = .error ("invalid padding bits in BIT STRING") := by
  refine ⟨?_, by decide, by decide⟩
  intro bytes
  match bytes with
  | [] => rfl
  | pad :: rest =>
    simp only [parseBitString, parseBitStringSpec]
    rw [if_neg (show ¬ ((pad :: rest).length = 0) by simp)]
    have hgd : (pad :: rest).getD 0 0 = pad := rfl
    rcases le_or_lt pad 7 with hp | hp
    · have hmask : (1 <<< (pad :: rest).getD 0 0 + 255) % 256 = 2 ^ pad - 1 := by
        rw [hgd]
        interval_cases pad <;> rfl
      have hand : (pad :: rest).getLastD 0 &&& (1 <<< (pad :: rest).getD 0 0 + 255) % 256
          = (pad :: rest).getLastD 0 % 2 ^ pad := by
        rw [hmask, Nat.and_pow_two_sub_one_eq_mod]
      have hcond : (7 < (pad :: rest).getD 0 0
            ∨ ((pad :: rest).length = 1 ∧ 0 < (pad :: rest).getD 0 0)
            ∨ (pad :: rest).getLastD 0 &&& (1 <<< (pad :: rest).getD 0 0 + 255) % 256 ≠ 0)
          ↔ (7 < pad ∨ (rest = [] ∧ 0 < pad) ∨ (pad :: rest).getLastD 0 % 2 ^ pad ≠ 0) := by
        rw [hand, hgd]
        simp [List.length_eq_zero]
      refine if_congr hcond rfl ?_
      simp only [hgd, List.drop_one, List.tail_cons, Except.ok.injEq, BitStringValue.mk.injEq,
        List.length_cons]
      refine ⟨trivial, ?_⟩
      push_cast
      ring
    · rw [if_pos (Or.inl (show 7 < (pad :: rest).getD 0 0 from hp)),
        if_pos (Or.inl hp)]

/-! ## C10: `parseLength` cursor and length -/

/-- The plain big-endian value of the long-form length octets of a buffer
(what the accumulation loop of `parseLength` computes before any 32-bit
wrap). -/
def lengthOctetsVal (bytes : List ℕ) : ℕ :=
  digitsVal 256 ((bytes.drop 2).take (bytes.getD 1 0 &&& 127))

/-- C10 counterexample: the claim that `parseLength` always returns a pair
with `1 ≤ cursor ≤ length` FAILS twice over.  With four `0xFF` length
octets the 32-bit `int` accumulator wraps to `-1` and the result is
`(length, cursor) = (5, 6)` with `cursor > length`; and with a declared
octet count that exceeds the buffer (`[0x04, 0x85, 0x01]`) the function
does not return a pair at all — it panics on `bytes[2+i]`. -/
theorem parseLength_violates_cursor_bound :
    parseLength [4, 132, 255, 255, 255, 255] = some (5, 6)
    ∧ ¬ ((1 : ℤ) ≤ 6 ∧ (6 : ℤ) ≤ 5)
    ∧ parseLength [4, 133, 1] = none := by
  refine ⟨by decide, by decide, by decide⟩

theorem foldl_wrap32_eq (ds : List ℕ) : ∀ x : ℤ,
    ds.foldl (fun (l : ℤ) (b : ℕ) => wrap32 (l * 256 + (b : ℤ))) (wrap32 x)
      = wrap32 (ds.foldl (fun (l : ℤ) (b : ℕ) => l * 256 + (b : ℤ)) x) := by
  induction ds with
  | nil => intro x; rfl
  | cons d ds ih =>
    intro x
    rw [List.foldl_cons, List.foldl_cons]
    have hc : wrap32 (wrap32 x * 256 + (d : ℤ)) = wrap32 (x * 256 + (d : ℤ)) :=
      wrap32_congr (by have := wrap32_mod x; omega)
    rw [hc]
    exact ih (x * 256 + (d : ℤ))

theorem foldl_int_cast (ds : List ℕ) : ∀ x : ℕ,
    ds.foldl (fun (l : ℤ) (b : ℕ) => l * 256 + (b : ℤ)) ((x : ℕ) : ℤ)
      = ((ds.foldl (fun a d => a * 256 + d) x : ℕ) : ℤ) := by
  induction ds with
  | nil => intro x; rfl
  | cons d ds ih =>
    intro x
    rw [List.foldl_cons, List.foldl_cons]
    have : (x : ℤ) * 256 + (d : ℤ) = ((x * 256 + d : ℕ) : ℤ) := by push_cast; ring
    rw [this, ih]

/-- C10 amended: whenever `parseLength` returns a pair (rather than
panicking on a truncated long form), `1 ≤ cursor`; and `cursor ≤ length`
holds as well provided the big-endian value of the length octets does not
overflow the 32-bit signed accumulator (its value modulo `2^32` stays below
`2^31 - 129`, which every well-formed SNMP length satisfies). -/
theorem parseLength_cursor_bounds (bytes : List ℕ) (l c : ℤ)
    (h : parseLength bytes = some (l, c)) :
    1 ≤ c ∧ (lengthOctetsVal bytes % 2 ^ 32 < 2 ^ 31 - 129 → c ≤ l) := by
  unfold parseLength at h
  by_cases h2 : bytes.length ≤ 2
  · rw [if_pos h2] at h
    simp only [Option.some.injEq, Prod.mk.injEq] at h
    obtain ⟨hl, hc⟩ := h
    exact ⟨by omega, fun _ => by omega⟩
  · rw [if_neg h2] at h
    by_cases h3 : bytes.getD 1 0 ≤ 127
    · rw [if_pos h3] at h
      simp only [Option.some.injEq, Prod.mk.injEq] at h
      obtain ⟨hl, hc⟩ := h
      have hnn : (0 : ℤ) ≤ (bytes.getD 1 0 : ℤ) := Int.ofNat_nonneg _
      exact ⟨by omega, fun _ => by omega⟩
    · rw [if_neg h3] at h
      by_cases h4 : bytes.length < 2 + (bytes.getD 1 0 &&& 127)
      · rw [if_pos h4] at h
        cases h
      · rw [if_neg h4] at h
        simp only [Option.some.injEq, Prod.mk.injEq] at h
        obtain ⟨hl, hc⟩ := h
        set k := bytes.getD 1 0 &&& 127 with hkdef
        have hk127 : k ≤ 127 := Nat.and_le_right
        have hknn : (0 : ℤ) ≤ (k : ℤ) := Int.ofNat_nonneg _
        refine ⟨by omega, ?_⟩
        intro hacc
        have hfold : ((bytes.drop 2).take k).foldl
            (fun (l : ℤ) (b : ℕ) => wrap32 (l * 256 + (b : ℤ))) 0
            = wrap32 ((lengthOctetsVal bytes : ℕ) : ℤ) := by
          have h0 : ((bytes.drop 2).take k).foldl
              (fun (l : ℤ) (b : ℕ) => wrap32 (l * 256 + (b : ℤ))) (wrap32 0)
              = wrap32 (((bytes.drop 2).take k).foldl
                (fun (l : ℤ) (b : ℕ) => l * 256 + (b : ℤ)) 0) :=
            foldl_wrap32_eq _ 0
          rw [show wrap32 0 = 0 by decide] at h0
          rw [h0]
          congr 1
          rw [show (0 : ℤ) = ((0 : ℕ) : ℤ) from rfl, foldl_int_cast]
          unfold lengthOctetsVal digitsVal
          rw [← hkdef]
        have hmodlt : ((lengthOctetsVal bytes : ℕ) : ℤ) % 2 ^ 32 < 2 ^ 31 := by
          have : ((lengthOctetsVal bytes : ℕ) : ℤ) % 2 ^ 32
              = ((lengthOctetsVal bytes % 2 ^ 32 : ℕ) : ℤ) := by push_cast; rfl
          omega
        have hwrap : wrap32 ((lengthOctetsVal bytes : ℕ) : ℤ)
            = ((lengthOctetsVal bytes : ℕ) : ℤ) % 2 ^ 32 :=
          wrap32_of_mod_lt hmodlt
        have hrange : (0 : ℤ) ≤ ((lengthOctetsVal bytes : ℕ) : ℤ) % 2 ^ 32
            ∧ ((lengthOctetsVal bytes : ℕ) : ℤ) % 2 ^ 32 < 2 ^ 31 - 129 := by
          have : ((lengthOctetsVal bytes : ℕ) : ℤ) % 2 ^ 32
              = ((lengthOctetsVal bytes % 2 ^ 32 : ℕ) : ℤ) := by push_cast; rfl
          omega
        rw [hfold, hwrap] at hl
        have hfinal : wrap32 (((lengthOctetsVal bytes : ℕ) : ℤ) % 2 ^ 32 + 2 + (k : ℤ))
            = ((lengthOctetsVal bytes : ℕ) : ℤ) % 2 ^ 32 + 2 + (k : ℤ) := by
          apply wrap32_eq_self <;> omega
        rw [hfinal] at hl
        omega

/-! ## Towards C5: digits, decimal text, `Atoi`, split and trim lemmas -/

theorem digitsAux_ne_nil (base fuel n : ℕ) : digitsAux base fuel n ≠ [] := by
  cases fuel with
  | zero => simp [digitsAux]
  | succ f =>
    rw [digitsAux]
    split
    · simp
    · simp

theorem digitsVal_append_single (base : ℕ) (l : List ℕ) (d : ℕ) :
    digitsVal base (l ++ [d]) = digitsVal base l * base + d := by
  unfold digitsVal
  rw [List.foldl_append]
  rfl

theorem digitsVal_digitsAux (base : ℕ) :
    ∀ fuel n, digitsVal base (digitsAux base fuel n) = n := by
  intro fuel
  induction fuel with
  | zero => intro n; simp [digitsAux, digitsVal]
  | succ f ih =>
    intro n
    rw [digitsAux]
    split
    · simp [digitsVal]
    · rw [digitsVal_append_single, ih]
      exact Nat.div_add_mod' n base

theorem digitsAux_lt_base (base : ℕ) (hbase : 2 ≤ base) :
    ∀ fuel n, n ≤ fuel → ∀ d ∈ digitsAux base fuel n, d < base := by
  intro fuel
  induction fuel with
  | zero =>
    intro n hn d hd
    simp [digitsAux] at hd
    omega
  | succ f ih =>
    intro n hn d hd
    rw [digitsAux] at hd
    split at hd
    · simp at hd
      omega
    · rename_i h
      rw [List.mem_append] at hd
      rcases hd with hd | hd
      · have h1 : n / base ≤ n / 2 := Nat.div_le_div_left hbase (by norm_num)
        have h2 : n / 2 < n := Nat.div_lt_self (by omega) (by norm_num)
        exact ih (n / base) (by omega) d hd
      · simp at hd
        subst hd
        exact Nat.mod_lt n (by omega)

theorem digitsAux_length_le (base : ℕ) (hbase : 2 ≤ base) :
    ∀ fuel n k, 1 ≤ k → n < base ^ k → (digitsAux base fuel n).length ≤ k := by
  intro fuel
  induction fuel with
  | zero =>
    intro n k hk _
    simp [digitsAux]
    omega
  | succ f ih =>
    intro n k hk hnk
    rw [digitsAux]
    split
    · simp
      omega
    · rename_i h
      rw [List.length_append]
      have hk2 : 2 ≤ k := by
        by_contra hc
        have hk1 : k = 1 := by omega
        subst hk1
        rw [pow_one] at hnk
        omega
      have hdiv : n / base < base ^ (k - 1) := by
        rw [Nat.div_lt_iff_lt_mul (by omega)]
        calc n < base ^ k := hnk
          _ = base ^ (k - 1) * base := by
              rw [← pow_succ]
              congr 1
              omega
      have := ih (n / base) (k - 1) (by omega) hdiv
      simp
      omega

theorem natRepr_ne_nil (n : ℕ) : natRepr n ≠ [] := by
  unfold natRepr
  simp [digitsAux_ne_nil]

theorem natRepr_digits (n : ℕ) : ∀ c ∈ natRepr n, 48 ≤ c ∧ c ≤ 57 := by
  intro c hc
  unfold natRepr at hc
  simp at hc
  obtain ⟨d, hd, rfl⟩ := hc
  have := digitsAux_lt_base 10 (by norm_num) n n (le_refl n) d hd
  omega

theorem goAtoi_natRepr (n : ℕ) (hn : n < 2 ^ 31) : goAtoi (natRepr n) = .ok (n : ℤ) := by
  obtain ⟨c, crest, hcr⟩ := List.exists_cons_of_ne_nil (natRepr_ne_nil n)
  have hcd : 48 ≤ c ∧ c ≤ 57 := natRepr_digits n c (by rw [hcr]; exact List.mem_cons_self _ _)
  have h45 : ¬ (c = 45) := by omega
  have h43 : ¬ (c = 43) := by omega
  have hall : (c :: crest).all (fun d => decide (48 ≤ d ∧ d ≤ 57)) = true := by
    rw [List.all_eq_true]
    intro d hd
    rw [← hcr] at hd
    simpa using natRepr_digits n d hd
  have hval : digitsVal 10 ((c :: crest).map (fun d => d - 48)) = n := by
    rw [← hcr]
    unfold natRepr
    rw [List.map_map]
    have hmap : ((fun d => d - 48) ∘ (fun d => 48 + d)) = id := by
      funext d
      simp
    rw [hmap, List.map_id]
    exact digitsVal_digitsAux 10 n n
  rw [hcr, goAtoi]
  simp only [h45, h43, or_self, if_false, ite_false, reduceIte]
  rw [if_neg (by simp), if_pos hall, hval, if_neg (by simp),
    if_neg (by exact_mod_cast Nat.not_le.mpr hn)]

theorem splitDot_no_dot (seg : List ℕ) (h : ∀ c ∈ seg, c ≠ 46) : splitDot seg = [seg] := by
  induction seg with
  | nil => rfl
  | cons c s ih =>
    have hc : c ≠ 46 := h c (List.mem_cons_self _ _)
    rw [splitDot, if_neg hc, ih (fun d hd => h d (List.mem_cons_of_mem _ hd))]

theorem splitDot_join (segs : List (List ℕ)) :
    ∀ seg : List ℕ, (∀ c ∈ seg, c ≠ 46) → (∀ t ∈ segs, ∀ c ∈ t, c ≠ 46) →
    splitDot (seg ++ (segs.map (fun t => 46 :: t)).flatten) = seg :: segs := by
  induction segs with
  | nil =>
    intro seg hseg _
    simpa using splitDot_no_dot seg hseg
  | cons t ts ih =>
    intro seg hseg hsegs
    revert hseg
    induction seg with
    | nil =>
      intro _
      simp only [List.nil_append, List.map_cons, List.flatten_cons, List.cons_append]
      rw [splitDot, if_pos rfl]
      rw [show t ++ ((ts.map (fun u => 46 :: u)).flatten) =
        t ++ ((ts.map (fun u => 46 :: u)).flatten) from rfl]
      rw [ih t (hsegs t (List.mem_cons_self _ _))
        (fun u hu => hsegs u (List.mem_cons_of_mem _ hu))]
    | cons c s ihs =>
      intro hseg
      have hc : c ≠ 46 := hseg c (List.mem_cons_self _ _)
      rw [List.cons_append, splitDot, if_neg hc,
        ihs (fun d hd => hseg d (List.mem_cons_of_mem _ hd))]

theorem trimDots_eq_self (s : List ℕ)
    (hh : ∀ c, s.head? = some c → c ≠ 46)
    (hl : ∀ c, s.getLast? = some c → c ≠ 46) :
    trimDots s = s := by
  match s with
  | [] => rfl
  | c :: t =>
    have hc : c ≠ 46 := hh c rfl
    unfold trimDots
    rw [List.dropWhile_cons, if_neg (by simp [hc])]
    have hrne : (c :: t).reverse ≠ [] := by simp
    obtain ⟨d, r', hr⟩ := List.exists_cons_of_ne_nil hrne
    have hd : d ≠ 46 := by
      apply hl
      rw [← List.head?_reverse, hr]
      rfl
    rw [hr, List.dropWhile_cons, if_neg (by simp [hd]), ← hr, List.reverse_reverse]

theorem foldl_oid_append (l : List ℤ) : ∀ acc : List ℕ,
    l.foldl (fun ret i => ret ++ (46 :: intRepr i)) acc
      = acc ++ (l.map (fun i => 46 :: intRepr i)).flatten := by
  induction l with
  | nil => intro acc; simp
  | cons i l ih =>
    intro acc
    rw [List.foldl_cons, ih]
    simp

theorem intRepr_natCast (x : ℕ) : intRepr ((x : ℕ) : ℤ) = natRepr x := by
  unfold intRepr
  rw [if_neg (by exact (Int.natCast_nonneg x).not_lt)]
  simp

theorem oidToString_natList (x0 : ℕ) (xs : List ℕ) :
    oidToString ((x0 :: xs).map (fun x => ((x : ℕ) : ℤ)))
      = natRepr x0 ++ (xs.map (fun x => 46 :: natRepr x)).flatten := by
  unfold oidToString
  rw [List.map_cons, List.foldl_cons, foldl_oid_append]
  simp only [List.nil_append, intRepr_natCast, List.map_map]
  have hmap : ((fun i => 46 :: intRepr i) ∘ (fun x : ℕ => ((x : ℕ) : ℤ)))
      = (fun x => 46 :: natRepr x) := by
    funext x
    simp [intRepr_natCast]
  rw [hmap, List.cons_append, List.drop_one, List.tail_cons]

theorem atoiAll_natRepr (xs : List ℕ) (h : ∀ x ∈ xs, x < 2 ^ 31) :
    atoiAll (xs.map natRepr) = .ok (xs.map (fun x => ((x : ℕ) : ℤ))) := by
  induction xs with
  | nil => rfl
  | cons x xs ih =>
    rw [List.map_cons, atoiAll, goAtoi_natRepr x (h x (List.mem_cons_self _ _)),
      ih (fun y hy => h y (List.mem_cons_of_mem _ hy)), List.map_cons]

/-! ## Towards C5: the varint round trip -/

theorem lor_mul128 (a d : ℕ) (hd : d < 128) : (a * 128) ||| d = a * 128 + d := by
  have h := Nat.mul_add_lt_is_or (show d < 2 ^ 7 from hd) a
  rw [show a * 128 = 2 ^ 7 * a by ring]
  exact h.symm

theorem and127_of_lt (d : ℕ) (hd : d < 128) : d &&& 127 = d := by
  have h := Nat.and_pow_two_sub_one_eq_mod d 7
  rw [Nat.mod_eq_of_lt hd] at h
  simpa using h

theorem add128_and127 (d : ℕ) (hd : d < 128) : (d + 128) &&& 127 = d := by
  have h := Nat.and_pow_two_sub_one_eq_mod (d + 128) 7
  have hmod : (d + 128) % 2 ^ 7 = d := by omega
  rw [hmod] at h
  simpa using h

theorem and128_of_lt (d : ℕ) (hd : d < 128) : d &&& 128 = 0 := by
  have h := Nat.and_two_pow d 7
  rw [Nat.testBit_lt_two_pow hd] at h
  simpa using h

theorem add128_and128 (d : ℕ) (hd : d < 128) : (d + 128) &&& 128 = 128 := by
  have h := Nat.and_two_pow (d + 128) 7
  have ht : (d + 128).testBit 7 = true := by
    have e : d + 128 = 2 ^ 7 * 1 + d := by omega
    rw [e, Nat.testBit_mul_pow_two_add 1 (show d < 2 ^ 7 from hd) 7]
    rw [if_neg (lt_irrefl 7)]
    decide
  rw [ht] at h
  simpa using h

theorem markCont_length : ∀ ds : List ℕ, (markCont ds).length = ds.length
  | [] => rfl
  | [_] => rfl
  | d :: e :: ds => by
    rw [show markCont (d :: e :: ds) = (d ||| 128) :: markCont (e :: ds) from rfl]
    simp [markCont_length (e :: ds)]

theorem markCont_ne_nil {ds : List ℕ} (h : ds ≠ []) : markCont ds ≠ [] := by
  match ds with
  | [_] => simp [markCont]
  | d :: e :: t => simp [markCont]

theorem getD_of_drop_cons {bytes t : List ℕ} {offset c : ℕ}
    (h : bytes.drop offset = c :: t) : bytes.getD offset 0 = c := by
  have hoff : offset < bytes.length := by
    by_contra hc
    push_neg at hc
    rw [List.drop_eq_nil_of_le hc] at h
    cases h
  rw [List.drop_eq_getElem_cons hoff] at h
  injection h with h1 _
  rw [List.getD_eq_getElem?_getD, List.getElem?_eq_getElem hoff]
  simpa using h1

theorem drop_succ_of_drop_cons {bytes t : List ℕ} {offset c : ℕ}
    (h : bytes.drop offset = c :: t) : bytes.drop (offset + 1) = t := by
  have h1 : bytes.drop (offset + 1) = (bytes.drop offset).drop 1 := by
    rw [List.drop_drop]
  rw [h1, h]
  rfl

theorem offset_lt_of_drop_cons {bytes t : List ℕ} {offset c : ℕ}
    (h : bytes.drop offset = c :: t) : offset < bytes.length := by
  by_contra hc
  push_neg at hc
  rw [List.drop_eq_nil_of_le hc] at h
  cases h

/-- Running the `parseBase128Int` loop over the continuation-marked digits of
a value, starting from accumulator `r`, yields `r * 128^len + value` and
advances the offset over exactly those digits — provided the final value
fits the 32-bit accumulator and at most five digit bytes are consumed. -/
theorem parseB128Go_encodes (bytes rest : List ℕ) :
    ∀ (ds : List ℕ) (r shifted offset : ℕ),
    ds ≠ [] →
    (∀ d ∈ ds, d < 128) →
    r * 128 ^ ds.length + digitsVal 128 ds < 2 ^ 31 →
    shifted + ds.length ≤ 5 →
    bytes.drop offset = markCont ds ++ rest →
    parseB128Go bytes (bytes.length - offset) shifted offset r
      = .ok (((r * 128 ^ ds.length + digitsVal 128 ds : ℕ) : ℤ), offset + ds.length) := by
  intro ds
  induction ds with
  | nil => intro r shifted offset hne; exact absurd rfl hne
  | cons d tail ih =>
    intro r shifted offset _ hlt hval hsh hdrop
    have hd : d < 128 := hlt d (List.mem_cons_self _ _)
    cases tail with
    | nil =>
      have hdrop1 : bytes.drop offset = d :: rest := by simpa [markCont] using hdrop
      have hoff : offset < bytes.length := offset_lt_of_drop_cons hdrop1
      have hfuel : bytes.length - offset = (bytes.length - (offset + 1)) + 1 := by omega
      have hb : bytes.getD offset 0 = d := getD_of_drop_cons hdrop1
      have hval1 : r * 128 + d < 2 ^ 31 := by
        have hds : digitsVal 128 [d] = d := by simp [digitsVal]
        have hp : (128 : ℕ) ^ [d].length = 128 := by simp
        rw [List.length_singleton] at hval
        rw [hds, pow_one] at hval
        exact hval
      have hr128 : r * 128 < 2 ^ 32 := by omega
      rw [hfuel, parseB128Go, if_neg (show ¬ 4 < shifted by simp at hsh; omega), hb]
      simp only [and127_of_lt d hd, Nat.mod_eq_of_lt hr128, lor_mul128 r d hd,
        and128_of_lt d hd]
      rw [if_pos trivial]
      have hwrap : wrap32 ((r * 128 + d : ℕ) : ℤ) = ((r * 128 + d : ℕ) : ℤ) := by
        apply wrap32_eq_self
        · have := Int.natCast_nonneg (r * 128 + d)
          omega
        · exact_mod_cast hval1
      rw [hwrap]
      have hds : digitsVal 128 [d] = d := by simp [digitsVal]
      simp [hds]
    | cons e tail2 =>
      have hdor : d ||| 128 = d + 128 := by
        rw [Nat.lor_comm]
        have h1 := lor_mul128 1 d hd
        simp only [one_mul] at h1
        omega
      have hdrop1 : bytes.drop offset = (d + 128) :: (markCont (e :: tail2) ++ rest) := by
        rw [hdrop, show markCont (d :: e :: tail2) = (d ||| 128) :: markCont (e :: tail2)
          from rfl, hdor]
        rfl
      have hoff : offset < bytes.length := offset_lt_of_drop_cons hdrop1
      have hfuel : bytes.length - offset = (bytes.length - (offset + 1)) + 1 := by omega
      have hb : bytes.getD offset 0 = d + 128 := getD_of_drop_cons hdrop1
      have hlen : (d :: e :: tail2).length = (e :: tail2).length + 1 := rfl
      have hvalgen : (r * 128 + d) * 128 ^ (e :: tail2).length + digitsVal 128 (e :: tail2)
          = r * 128 ^ (d :: e :: tail2).length + digitsVal 128 (d :: e :: tail2) := by
        rw [digitsVal_cons 128 d (e :: tail2), hlen, pow_succ]
        ring
      have hr128 : r * 128 < 2 ^ 32 := by
        have hmono : r * 128 ≤ r * 128 ^ ((e :: tail2).length + 1) := by
          apply Nat.mul_le_mul_left
          exact Nat.le_self_pow (by omega) 128
        rw [hlen] at hval
        omega
      rw [hfuel, parseB128Go, if_neg (show ¬ 4 < shifted by simp at hsh; omega), hb]
      simp only [add128_and127 d hd, Nat.mod_eq_of_lt hr128, lor_mul128 r d hd,
        add128_and128 d hd]
      rw [if_neg (by omega : ¬ (128 : ℕ) = 0)]
      have ihres := ih (r * 128 + d) (shifted + 1) (offset + 1)
        (by simp)
        (fun x hx => hlt x (List.mem_cons_of_mem _ hx))
        (by rw [hvalgen]; exact hval)
        (by simp at hsh ⊢; omega)
        (drop_succ_of_drop_cons hdrop1)
      rw [ihres, hvalgen]
      have : offset + 1 + (e :: tail2).length = offset + (d :: e :: tail2).length := by
        simp
        omega
      rw [this]

theorem marshalBase128Int_natCast (n : ℕ) :
    marshalBase128Int ((n : ℕ) : ℤ)
      = if n = 0 then [0] else markCont (digitsAux 128 n n) := by
  unfold marshalBase128Int
  by_cases h : n = 0
  · subst h
    simp
  · rw [if_neg (by exact_mod_cast h), if_neg (by exact (Int.natCast_nonneg n).not_lt),
      if_neg h]
    simp

theorem marshalBase128Int_natCast_ne_nil (n : ℕ) : marshalBase128Int ((n : ℕ) : ℤ) ≠ [] := by
  rw [marshalBase128Int_natCast]
  split
  · simp
  · exact markCont_ne_nil (digitsAux_ne_nil _ _ _)

theorem parseBase128Int_marshal (bytes rest : List ℕ) (n offset : ℕ) (hn : n < 2 ^ 31)
    (hdrop : bytes.drop offset = marshalBase128Int ((n : ℕ) : ℤ) ++ rest) :
    parseBase128Int bytes offset
      = .ok (((n : ℕ) : ℤ), offset + (marshalBase128Int ((n : ℕ) : ℤ)).length) := by
  unfold parseBase128Int
  rw [marshalBase128Int_natCast] at hdrop ⊢
  by_cases h : n = 0
  · subst h
    rw [if_pos rfl] at hdrop ⊢
    have hgo := parseB128Go_encodes bytes rest [0] 0 0 offset (by simp) (by simp)
      (by simp [digitsVal]) (by simp) (by simpa [markCont] using hdrop)
    simpa [digitsVal] using hgo
  · rw [if_neg h] at hdrop ⊢
    have hne : digitsAux 128 n n ≠ [] := digitsAux_ne_nil _ _ _
    have hlt : ∀ d ∈ digitsAux 128 n n, d < 128 :=
      digitsAux_lt_base 128 (by norm_num) n n (le_refl n)
    have hval : digitsVal 128 (digitsAux 128 n n) = n := digitsVal_digitsAux 128 n n
    have hlen5 : (digitsAux 128 n n).length ≤ 5 :=
      digitsAux_length_le 128 (by norm_num) n n 5 (by norm_num)
        (lt_of_lt_of_le hn (by norm_num))
    have hgo := parseB128Go_encodes bytes rest (digitsAux 128 n n) 0 0 offset hne hlt
      (by rw [hval]; simpa using hn) (by omega) hdrop
    rw [markCont_length]
    simpa [hval] using hgo

theorem parseOidAux_encodes (bytes : List ℕ) :
    ∀ (comps : List ℕ) (offset fuel : ℕ),
    (∀ x ∈ comps, x < 2 ^ 31) →
    bytes.drop offset = (comps.map (fun x => marshalBase128Int ((x : ℕ) : ℤ))).flatten →
    bytes.length - offset ≤ fuel →
    parseOidAux bytes fuel offset = .ok (comps.map (fun x => ((x : ℕ) : ℤ))) := by
  intro comps
  induction comps with
  | nil =>
    intro offset fuel _ hdrop _
    have hle : bytes.length ≤ offset := by
      rw [← List.drop_eq_nil_iff]
      simpa using hdrop
    unfold parseOidAux
    rw [if_neg (by omega)]
    rfl
  | cons c cs ih =>
    intro offset fuel hsize hdrop hfuel
    have hc : c < 2 ^ 31 := hsize c (List.mem_cons_self _ _)
    have hdrop1 : bytes.drop offset = marshalBase128Int ((c : ℕ) : ℤ)
        ++ (cs.map (fun x => marshalBase128Int ((x : ℕ) : ℤ))).flatten := by
      simpa using hdrop
    have henc := parseBase128Int_marshal bytes _ c offset hc hdrop1
    have hlc : 1 ≤ (marshalBase128Int ((c : ℕ) : ℤ)).length :=
      List.length_pos.mpr (marshalBase128Int_natCast_ne_nil c)
    have hlen := congrArg List.length hdrop1
    rw [List.length_drop, List.length_append] at hlen
    have hoff : offset < bytes.length := by omega
    cases fuel with
    | zero => omega
    | succ f =>
      have hdrop2 : bytes.drop (offset + (marshalBase128Int ((c : ℕ) : ℤ)).length)
          = (cs.map (fun x => marshalBase128Int ((x : ℕ) : ℤ))).flatten := by
        have hdd : bytes.drop (offset + (marshalBase128Int ((c : ℕ) : ℤ)).length)
            = (bytes.drop offset).drop (marshalBase128Int ((c : ℕ) : ℤ)).length :=
          (List.drop_drop _ _ _).symm
        rw [hdd, hdrop1, List.drop_left]
      unfold parseOidAux
      rw [if_pos hoff]
      simp only [henc]
      rw [ih (offset + (marshalBase128Int ((c : ℕ) : ℤ)).length) f
        (fun y hy => hsize y (List.mem_cons_of_mem _ hy)) hdrop2 (by omega)]
      simp

theorem parseObjectIdentifier_marshal (x0 x1 : ℕ) (rest : List ℕ)
    (hx1 : x1 < 40)
    (hrest : ∀ x ∈ rest, x < 2 ^ 31) :
    parseObjectIdentifier ((40 * x0 + x1) ::
        (rest.map (fun x => marshalBase128Int ((x : ℕ) : ℤ))).flatten)
      = .ok ((x0 :: x1 :: rest).map (fun x => ((x : ℕ) : ℤ))) := by
  simp only [parseObjectIdentifier]
  have hdrop : ((40 * x0 + x1) ::
      (rest.map (fun x => marshalBase128Int ((x : ℕ) : ℤ))).flatten).drop 1
      = (rest.map (fun x => marshalBase128Int ((x : ℕ) : ℤ))).flatten := rfl
  rw [parseOidAux_encodes _ rest 1 _ hrest hdrop (by omega)]
  have hdiv : (40 * x0 + x1) / 40 = x0 := by omega
  have hmod : (40 * x0 + x1) % 40 = x1 := by omega
  rw [hdiv, hmod]
  simp

theorem oidString_head (x0 : ℕ) (xs : List ℕ) :
    ∀ c, (natRepr x0 ++ (xs.map (fun x => 46 :: natRepr x)).flatten).head? = some c →
      48 ≤ c ∧ c ≤ 57 := by
  intro c hc
  obtain ⟨d, t, hd⟩ := List.exists_cons_of_ne_nil (natRepr_ne_nil x0)
  rw [List.head?_append, hd] at hc
  simp at hc
  subst hc
  exact natRepr_digits x0 d (by rw [hd]; exact List.mem_cons_self _ _)

theorem oidString_getLast (xs : List ℕ) :
    ∀ (x0 c : ℕ),
      (natRepr x0 ++ (xs.map (fun x => 46 :: natRepr x)).flatten).getLast? = some c →
      48 ≤ c ∧ c ≤ 57 := by
  induction xs with
  | nil =>
    intro x0 c hc
    simp only [List.map_nil, List.flatten_nil, List.append_nil] at hc
    have hmem : c ∈ natRepr x0 := by
      obtain ⟨h, he⟩ := List.mem_getLast?_eq_getLast (show c ∈ (natRepr x0).getLast? from hc)
      rw [he]
      exact List.getLast_mem h
    exact natRepr_digits x0 c hmem
  | cons y ys ih =>
    intro x0 c hc
    have hassoc : natRepr x0 ++ ((y :: ys).map (fun x => 46 :: natRepr x)).flatten
        = (natRepr x0 ++ [46]) ++ (natRepr y ++ (ys.map (fun x => 46 :: natRepr x)).flatten) := by
      simp
    have hne2 : natRepr y ++ (ys.map (fun x => 46 :: natRepr x)).flatten ≠ [] := by
      intro hcon
      exact natRepr_ne_nil y (List.append_eq_nil.mp hcon).1
    rw [hassoc, List.getLast?_append_of_ne_nil _ hne2] at hc
    exact ih y c hc

theorem marshalOID_canonical (x0 x1 : ℕ) (rest : List ℕ)
    (hx1 : x1 < 40) (hb : 40 * x0 + x1 ≤ 255)
    (hsize : ∀ x ∈ x0 :: x1 :: rest, x < 2 ^ 31) :
    marshalOID (oidToString ((x0 :: x1 :: rest).map (fun x => ((x : ℕ) : ℤ))))
      = .ok ((40 * x0 + x1) ::
          (rest.map (fun x => marshalBase128Int ((x : ℕ) : ℤ))).flatten) := by
  rw [oidToString_natList]
  have htrim : trimDots (natRepr x0 ++ ((x1 :: rest).map (fun x => 46 :: natRepr x)).flatten)
      = natRepr x0 ++ ((x1 :: rest).map (fun x => 46 :: natRepr x)).flatten := by
    apply trimDots_eq_self
    · intro c hc
      have := oidString_head x0 (x1 :: rest) c hc
      omega
    · intro c hc
      have := oidString_getLast (x1 :: rest) x0 c hc
      omega
  have hsplit : splitDot (natRepr x0 ++ ((x1 :: rest).map (fun x => 46 :: natRepr x)).flatten)
      = (x0 :: x1 :: rest).map natRepr := by
    have hjoin := splitDot_join ((x1 :: rest).map natRepr) (natRepr x0)
      (fun c hc => by have := natRepr_digits x0 c hc; omega)
      (fun t ht c hc => by
        rw [List.mem_map] at ht
        obtain ⟨y, _, rfl⟩ := ht
        have := natRepr_digits y c hc
        omega)
    rw [List.map_map] at hjoin
    have hcomp : ((fun t => 46 :: t) ∘ natRepr) = (fun x : ℕ => 46 :: natRepr x) := rfl
    rw [hcomp] at hjoin
    rw [hjoin]
    simp
  have hmar : marshalObjectIdentifier ((x0 :: x1 :: rest).map (fun x => ((x : ℕ) : ℤ)))
      = .ok ((40 * x0 + x1) ::
          (rest.map (fun x => marshalBase128Int ((x : ℕ) : ℤ))).flatten) := by
    unfold marshalObjectIdentifier
    rw [if_neg ?hcond]
    case hcond =>
      push_neg
      refine ⟨by simp, ?_, ?_⟩
      · simp only [List.map_cons, List.getD_cons_zero]
        exact_mod_cast by omega
      · simp only [List.map_cons, List.getD_cons_succ, List.getD_cons_zero]
        exact_mod_cast hx1
    simp only [List.map_cons, List.getD_cons_zero, List.getD_cons_succ,
      List.drop_succ_cons, List.drop_zero]
    have hbyte : ((40 * ((x0 : ℕ) : ℤ) + ((x1 : ℕ) : ℤ)) % 256).toNat = 40 * x0 + x1 := by
      have h1 : (40 * ((x0 : ℕ) : ℤ) + ((x1 : ℕ) : ℤ)) % 256
          = 40 * ((x0 : ℕ) : ℤ) + ((x1 : ℕ) : ℤ) := by
        apply Int.emod_eq_of_lt
        · positivity
        · omega
      rw [h1]
      omega
    rw [hbyte, List.map_map]
    rfl
  unfold marshalOID
  simp only [htrim, hsplit, atoiAll_natRepr (x0 :: x1 :: rest) hsize]
  rw [hmar]

/-! ## C5: the OID string round trip -/

/-- C5 counterexample: the round trip FAILS on the valid canonical OID string
"6.16" (bytes `[54, 46, 49, 54]`).  Its first byte `40*6+16 = 256` is
truncated to `0` by `marshalObjectIdentifier`, so the parse renders "0.0"
(bytes `[48, 46, 48]`), not "6.16". -/
theorem oid_roundTrip_fails_at_6_16 :
    ((marshalOID [54, 46, 49, 54]).bind parseObjectIdentifier).map oidToString
      = .ok [48, 46, 48]
    ∧ ([48, 46, 48] : List ℕ) ≠ [54, 46, 49, 54] := by
  refine ⟨by decide, by decide⟩

/-- C5 amended: for every canonical dotted-decimal OID string — the rendering
of a component sequence `x0.x1.…` with `x1 < 40`, `40*x0 + x1 ≤ 255` (so
that the combined first byte is not truncated) and every component below
`2^31` (the Go `int` range) — marshalling the string and parsing the bytes
back yields the same string. -/
theorem oid_string_roundTrip (x0 x1 : ℕ) (rest : List ℕ)
    (hx1 : x1 < 40) (hb : 40 * x0 + x1 ≤ 255)
    (hsize : ∀ x ∈ x0 :: x1 :: rest, x < 2 ^ 31) :
    ((marshalOID (oidToString ((x0 :: x1 :: rest).map (fun x => ((x : ℕ) : ℤ))))).bind
        parseObjectIdentifier).map oidToString
      = .ok (oidToString ((x0 :: x1 :: rest).map (fun x => ((x : ℕ) : ℤ)))) := by
  rw [marshalOID_canonical x0 x1 rest hx1 hb hsize]
  show (parseObjectIdentifier ((40 * x0 + x1) ::
      (rest.map (fun x => marshalBase128Int ((x : ℕ) : ℤ))).flatten)).map oidToString = _
  rw [parseObjectIdentifier_marshal x0 x1 rest hx1
    (fun x hx => hsize x (List.mem_cons_of_mem _ (List.mem_cons_of_mem _ hx)))]
  rfl

/-- Witness for C5 at the OID "1.3.6". -/
theorem oid_string_roundTrip_witness :
    ((marshalOID (oidToString (([1, 3, 6] : List ℕ).map (fun x => ((x : ℕ) : ℤ))))).bind
        parseObjectIdentifier).map oidToString
      = .ok (oidToString (([1, 3, 6] : List ℕ).map (fun x => ((x : ℕ) : ℤ)))) :=
  oid_string_roundTrip 1 3 [6] (by decide) (by decide) (by decide)

/-- Witness for C10 at a well-formed long-form buffer
`[0x30, 0x82, 0x01, 0x2C]` (declared content length 300). -/
theorem parseLength_cursor_bounds_witness :
    (1 : ℤ) ≤ 4 ∧ (lengthOctetsVal [48, 130, 1, 44] % 2 ^ 32 < 2 ^ 31 - 129 → (4 : ℤ) ≤ 304) := by
  have h := parseLength_cursor_bounds [48, 130, 1, 44] 304 4 (by decide)
  exact h

end GoSnmp
